import Mathlib

/-!
Verification development for the FlowPay blockchain engine
(src/blockchain.js and the sync handlers of src/network/node.js).

The JavaScript source is shallowly embedded: the SHA-256 primitive is
treated as an abstract parameter H : String → String (the spec treats it
as "an available deterministic function"); every other routine is
translated directly.  JS Maps become association lists that preserve
insertion order (as JS Map iteration does), JS numbers carrying coin
amounts become integers (every embedded routine handles integral
amounts, on which JS float arithmetic is exact; only getBalance's final
rounding step divides, and it returns a rational), Date.now() timestamps become explicit Nat
arguments, and the proof-of-work do-while loop becomes a fuel-indexed
loop returning none when the fuel runs out.
-/

set_option maxRecDepth 4000

/-- Mirrors the string '0'.repeat(n) used for difficulty targets and the
all-zero genesis previousHash. -/
def zeros (n : Nat) : String :=
  String.mk (List.replicate n '0')

-- ============================================================
-- MerkleTree (src/blockchain.js, class MerkleTree)
-- ============================================================

/-- One level of the bottom-up pairing loop inside computeRoot/getProof:
for i = 0, 2, 4, ... the code pushes sha256(left + right) where
right = level[i + 1] || level[i].  The JS expression falls back to
level[i] both when level[i+1] is undefined (odd tail) and when it is the
empty string (falsy), so the fallback test here is equality with "". -/
def pairLevel (H : String → String) : List String → List String
  | [] => []
  | [a] => [H (a ++ a)]
  | a :: b :: rest => H (a ++ (if b = "" then a else b)) :: pairLevel H rest

/-- The while (level.length > 1) loop of MerkleTree.computeRoot, returning
level[0] once a single hash remains.  The loop halves the level each
iteration, so running it fuel-indexed with the initial length as fuel is
exact; structural recursion on the fuel keeps concrete instances
reducible inside the proof kernel. -/
def rootLoop (H : String → String) : Nat → List String → String
  | _, [] => ""
  | _, [x] => x
  | 0, _ :: _ :: _ => ""
  | fuel + 1, a :: b :: rest => rootLoop H fuel (pairLevel H (a :: b :: rest))

/-- MerkleTree.computeRoot: digest of the empty string on the empty list,
otherwise the bottom-up pairing loop. -/
def computeRoot (H : String → String) (hashes : List String) : String :=
  if hashes.length = 0 then H "" else rootLoop H hashes.length hashes

/-- One entry of a Merkle proof: the JS object Pattern hash / position,
with position = true standing for the string 'right'. -/
structure ProofStep where
  hash : String
  position : Bool
deriving DecidableEq, Repr

/-- The proof entry pushed by MerkleTree.getProof while processing the
pair whose even index is idx - idx % 2 at the current level. -/
def siblingStep (level : List String) (idx : Nat) : ProofStep :=
  let i := idx - idx % 2
  let left := level.getD i ""
  let r := level.getD (i + 1) ""
  let right := if r = "" then left else r
  if idx % 2 = 0 then ⟨right, true⟩ else ⟨left, false⟩

/-- The while loop of MerkleTree.getProof, fuel-indexed like rootLoop:
one sibling per level, then idx becomes idx / 2 and the level is paired
up. -/
def getProofLoop (H : String → String) : Nat → List String → Nat → List ProofStep
  | _, [], _ => []
  | _, [_], _ => []
  | 0, _ :: _ :: _, _ => []
  | fuel + 1, a :: b :: rest, idx =>
    siblingStep (a :: b :: rest) idx ::
      getProofLoop H fuel (pairLevel H (a :: b :: rest)) (idx / 2)

/-- MerkleTree.getProof: empty proof for lists of at most one hash. -/
def getProof (H : String → String) (hashes : List String) (index : Nat) :
    List ProofStep :=
  if hashes.length ≤ 1 then [] else getProofLoop H hashes.length hashes index

/-- The body of the for loop in MerkleTree.verifyProof: hash with the
sibling on the recorded side. -/
def applyStep (H : String → String) (h : String) (step : ProofStep) : String :=
  if step.position then H (h ++ step.hash) else H (step.hash ++ h)

/-- MerkleTree.verifyProof: fold the proof from the leaf and compare with
the root. -/
def verifyProof (H : String → String) (txHash : String)
    (proof : List ProofStep) (root : String) : Bool :=
  proof.foldl (applyStep H) txHash == root

-- ============================================================
-- Keys, signatures, wallet registry (src/blockchain.js §10)
-- ============================================================

/-- A wallet as stored in WALLET_REGISTRY: the demo scheme keeps the
private key next to the public key and address. -/
structure WalletRec where
  privateKey : String
  publicKey : String
  address : String
deriving DecidableEq, Repr

/-- The process-wide WALLET_REGISTRY Map (publicKey → wallet), embedded
as an insertion-ordered association list. -/
abbrev Registry := List (String × WalletRec)

/-- signData(data, privateKey) = sha256(data + privateKey). -/
def signData (H : String → String) (data privateKey : String) : String :=
  H (data ++ privateKey)

/-- verifySignature looks the public key up in the registry and, when
found, recomputes sha256(data + wallet.privateKey) and compares it with
the signature; an unknown key verifies nothing. -/
def verifySignature (H : String → String) (reg : Registry)
    (data signature pubKey : String) : Bool :=
  match reg.find? (fun e => e.1 == pubKey) with
  | none => false
  | some e => signData H data e.2.privateKey == signature

-- ============================================================
-- Transactions and the UTXO set (src/blockchain.js §2, §9)
-- ============================================================

structure TxInput where
  txHash : String
  outputIndex : Nat
deriving DecidableEq, Repr

structure TxOutput where
  address : String
  amount : ℤ
deriving DecidableEq, Repr

structure Tx where
  inputs : List TxInput
  outputs : List TxOutput
  signatures : List String
  isCoinbase : Bool
  timestamp : Nat
  hash : String
deriving DecidableEq, Repr

/-- JSON text of one input, as JSON.stringify produces inside
Transaction.computeHash. -/
def jsonInput (inp : TxInput) : String :=
  "\x7b\"txHash\":\"" ++ inp.txHash ++ "\",\"outputIndex\":" ++
    toString inp.outputIndex ++ "\x7d"

/-- Decimal text of a JS number amount, as JSON.stringify prints it. -/
def encAmount (i : ℤ) : String :=
  toString i

def jsonOutput (o : TxOutput) : String :=
  "\x7b\"address\":\"" ++ o.address ++ "\",\"amount\":" ++
    encAmount o.amount ++ "\x7d"

def jsonList (elems : List String) : String :=
  "[" ++ String.intercalate "," elems ++ "]"

/-- The JSON.stringify({inputs, outputs, timestamp, isCoinbase}) string
hashed by Transaction.computeHash; signatures are excluded. -/
def txSerialize (inputs : List TxInput) (outputs : List TxOutput)
    (timestamp : Nat) (isCoinbase : Bool) : String :=
  "\x7b\"inputs\":" ++ jsonList (inputs.map jsonInput) ++
    ",\"outputs\":" ++ jsonList (outputs.map jsonOutput) ++
    ",\"timestamp\":" ++ toString timestamp ++
    ",\"isCoinbase\":" ++ (if isCoinbase then "true" else "false") ++ "\x7d"

/-- The Transaction constructor: signatures start empty, the timestamp is
Date.now() (an explicit argument here), and hash = computeHash(). -/
def mkTx (H : String → String) (inputs : List TxInput)
    (outputs : List TxOutput) (isCoinbase : Bool) (timestamp : Nat) : Tx :=
  { inputs := inputs, outputs := outputs, signatures := [],
    isCoinbase := isCoinbase, timestamp := timestamp,
    hash := H (txSerialize inputs outputs timestamp isCoinbase) }

/-- Transaction.sign: one signature over the transaction hash per input. -/
def txSign (H : String → String) (tx : Tx) (privateKey : String) : Tx :=
  { tx with signatures :=
      tx.signatures ++ tx.inputs.map (fun _ => signData H tx.hash privateKey) }

/-- Transaction.createCoinbase: a synthetic input whose outputIndex
encodes the block height, one reward output, isCoinbase = true. -/
def createCoinbase (H : String → String) (address : String) (reward : ℤ)
    (blockHeight : Nat) (timestamp : Nat) : Tx :=
  mkTx H [⟨zeros 64, blockHeight⟩] [⟨address, reward⟩] true timestamp

/-- One spendable output as stored in the UTXO set. -/
structure Utxo where
  address : String
  amount : ℤ
deriving DecidableEq, Repr

/-- The utxoSet Map keyed by the string txHash:outputIndex, embedded as
an insertion-ordered association list with unique keys. -/
abbrev UtxoMap := List (String × Utxo)

/-- The template string txHash:outputIndex used as UTXO key. -/
def utxoKey (txHash : String) (outputIndex : Nat) : String :=
  txHash ++ ":" ++ toString outputIndex

/-- Map.get on the association-list embedding. -/
def mapGet (m : UtxoMap) (k : String) : Option Utxo :=
  match m with
  | [] => none
  | (k2, v) :: rest => if k2 = k then some v else mapGet rest k

/-- Map.set: update in place when the key exists, append otherwise. -/
def mapSet (m : UtxoMap) (k : String) (v : Utxo) : UtxoMap :=
  match m with
  | [] => [(k, v)]
  | (k2, v2) :: rest =>
    if k2 = k then (k, v) :: rest else (k2, v2) :: mapSet rest k v

/-- Map.delete: drop the entry with the given key. -/
def mapDelete (m : UtxoMap) (k : String) : UtxoMap :=
  m.filter (fun e => !(e.1 == k))

/-- The loop inside Transaction.verify checking, for input number i, that
some registry wallet owns the resolved UTXO address and that the i-th
signature verifies against that wallet public key. -/
def sigMatches (H : String → String) (reg : Registry)
    (txHash signature address : String) : Bool :=
  reg.any (fun e =>
    e.2.address == address && verifySignature H reg txHash signature e.1)

/-- The per-input loop of Transaction.verify: resolve the UTXO (false if
absent), then require a matching signature, advancing the signature
index i alongside the input list. -/
def checkInputs (H : String → String) (reg : Registry) (u : UtxoMap)
    (txHash : String) (sigs : List String) :
    List TxInput → Nat → Bool
  | [], _ => true
  | inp :: rest, i =>
    match mapGet u (utxoKey inp.txHash inp.outputIndex) with
    | none => false
    | some utxo =>
      sigMatches H reg txHash (sigs.getD i "") utxo.address &&
        checkInputs H reg u txHash sigs rest (i + 1)

/-- Transaction.getInputTotal: sum of resolved input amounts, an absent
UTXO contributing 0. -/
def getInputTotal (u : UtxoMap) (inputs : List TxInput) : ℤ :=
  inputs.foldl
    (fun sum inp =>
      sum + (((mapGet u (utxoKey inp.txHash inp.outputIndex)).map
        Utxo.amount).getD 0)) 0

/-- Sum of a transaction's output amounts. -/
def outputTotal (outputs : List TxOutput) : ℤ :=
  outputs.foldl (fun sum o => sum + o.amount) 0

/-- Transaction.verify: coinbase transactions verify trivially; otherwise
every input must resolve to a UTXO with a matching signature and the
resolved input total must cover the output total. -/
def txVerify (H : String → String) (reg : Registry) (tx : Tx)
    (u : UtxoMap) : Bool :=
  if tx.isCoinbase then true
  else
    checkInputs H reg u tx.hash tx.signatures tx.inputs 0 &&
      decide (outputTotal tx.outputs ≤ getInputTotal u tx.inputs)

-- ============================================================
-- Block and proof-of-work (src/blockchain.js §3, §4)
-- ============================================================

/-- String.startsWith, written through List.isPrefixOf so that concrete
instances reduce inside the proof kernel. -/
def strStartsWith (s pre : String) : Bool :=
  pre.data.isPrefixOf s.data

/-- MINING_REWARD = 50 FPC per block. -/
def MINING_REWARD : ℤ := 50

structure Block where
  height : Nat
  previousHash : String
  transactions : List Tx
  difficulty : Nat
  timestamp : Nat
  merkleRoot : String
  nonce : Nat
  hash : String
  miningTime : Nat
deriving DecidableEq, Repr

/-- The Block constructor: merkleRoot is computed immediately from the
transaction hashes; nonce starts at 0 and hash empty. -/
def mkBlock (H : String → String) (height : Nat) (previousHash : String)
    (transactions : List Tx) (difficulty : Nat) (timestamp : Nat) : Block :=
  { height := height, previousHash := previousHash,
    transactions := transactions, difficulty := difficulty,
    timestamp := timestamp,
    merkleRoot := computeRoot H (transactions.map Tx.hash),
    nonce := 0, hash := "", miningTime := 0 }

/-- Block.getHeaderString: the canonical
height:previousHash:merkleRoot:timestamp:difficulty:nonce string. -/
def headerString (b : Block) : String :=
  toString b.height ++ ":" ++ b.previousHash ++ ":" ++ b.merkleRoot ++ ":" ++
    toString b.timestamp ++ ":" ++ toString b.difficulty ++ ":" ++
    toString b.nonce

/-- The do-while body of Block.mine, fuel-indexed: increment the nonce,
recompute the header digest, stop when it starts with the target; none
models a search that has not terminated within the given fuel. -/
def mineLoop (H : String → String) (target : String) (b : Block) :
    Nat → Option Block
  | 0 => none
  | fuel + 1 =>
    let b1 : Block := { b with nonce := b.nonce + 1 }
    let b2 : Block := { b1 with hash := H (headerString b1) }
    if strStartsWith b2.hash target then some b2 else mineLoop H target b2 fuel

/-- Block.mine: scan nonces until the digest carries difficulty leading
zero hex characters. -/
def mineB (H : String → String) (b : Block) (fuel : Nat) : Option Block :=
  mineLoop H (zeros b.difficulty) b fuel

-- ============================================================
-- Blockchain state machine (src/blockchain.js §5)
-- ============================================================

/-- The mutable fields of a Blockchain instance that the claims concern:
chain, utxoSet, mempool and the configured difficulty (the UI callbacks
and miningStats counters carry no ledger state). -/
structure Chain where
  chain : List Block
  utxoSet : UtxoMap
  mempool : List Tx
  difficulty : Nat
deriving DecidableEq, Repr

/-- The Blockchain constructor: empty chain, empty UTXO set, empty
mempool. -/
def newChain (difficulty : Nat) : Chain :=
  { chain := [], utxoSet := [], mempool := [], difficulty := difficulty }

/-- Inner step of Blockchain processBlockUTXOs for a single transaction:
delete the consumed keys (skipped for coinbase), then insert every output
under txHash:index. -/
def processTxUTXOs (u : UtxoMap) (tx : Tx) : UtxoMap :=
  let u1 := if tx.isCoinbase then u
    else tx.inputs.foldl
      (fun m inp => mapDelete m (utxoKey inp.txHash inp.outputIndex)) u
  tx.outputs.enum.foldl
    (fun m p => mapSet m (utxoKey tx.hash p.1) ⟨p.2.address, p.2.amount⟩) u1

/-- Blockchain processBlockUTXOs over a whole block. -/
def processBlockUTXOs (u : UtxoMap) (b : Block) : UtxoMap :=
  b.transactions.foldl processTxUTXOs u

/-- Blockchain.initialize: build and mine a genesis block crediting the
founder with MINING_REWARD * 100, then append it and apply its UTXOs. -/
def initChainGenesis (H : String → String) (s : Chain) (genesisAddress : String)
    (tsTx tsBlock fuel : Nat) : Option Chain :=
  let coinbase := createCoinbase H genesisAddress (MINING_REWARD * 100) 0 tsTx
  let genesis := mkBlock H 0 (zeros 64) [coinbase] s.difficulty tsBlock
  (mineB H genesis fuel).map fun g =>
    { s with chain := s.chain ++ [g],
             utxoSet := processBlockUTXOs s.utxoSet g }

/-- Blockchain.addToMempool: verify non-coinbase transactions against the
current UTXO set; on failure throw Invalid transaction, on success append
to the mempool. -/
def addToMempool (H : String → String) (reg : Registry) (s : Chain)
    (tx : Tx) : Except String Chain :=
  if !tx.isCoinbase && !txVerify H reg tx s.utxoSet then
    Except.error "Invalid transaction"
  else Except.ok { s with mempool := s.mempool ++ [tx] }

/-- The coinbase transaction mineBlock builds for the next block. -/
def coinbaseFor (H : String → String) (s : Chain) (minerAddress : String)
    (tsTx : Nat) : Tx :=
  createCoinbase H minerAddress MINING_REWARD s.chain.length tsTx

/-- Blockchain.mineBlock: assemble coinbase plus the mempool snapshot,
mine, append, apply UTXO effects and clear the mempool.  Reading the tip
of an empty chain would throw in JS; here it yields none. -/
def mineBlock (H : String → String) (s : Chain) (minerAddress : String)
    (tsTx tsBlock fuel : Nat) : Option Chain :=
  match s.chain.getLast? with
  | none => none
  | some last =>
    let coinbase := coinbaseFor H s minerAddress tsTx
    let txs := coinbase :: s.mempool
    let block := mkBlock H s.chain.length last.hash txs s.difficulty tsBlock
    (mineB H block fuel).map fun b =>
      { s with chain := s.chain ++ [b],
               utxoSet := processBlockUTXOs s.utxoSet b,
               mempool := [] }

/-- Amount sum of the UTXO-set scan in Blockchain.getBalance. -/
def utxoSum (m : UtxoMap) (address : String) : ℤ :=
  m.foldl (fun acc e => if e.2.address = address then acc + e.2.amount else acc) 0

/-- Math.round(x * 100) / 100, JS rounding half toward positive infinity. -/
def jsRound2 (x : ℚ) : ℚ :=
  ((⌊x * 100 + 1 / 2⌋ : ℤ) : ℚ) / 100

/-- Blockchain.getBalance: rounded sum of the UTXOs at an address. -/
def getBalance (s : Chain) (address : String) : ℚ :=
  jsRound2 ((utxoSum s.utxoSet address : ℤ) : ℚ)

/-- Result object of Blockchain.validateChain: valid, or the first
failing block index with its reason string. -/
inductive ChainCheck where
  | ok : ChainCheck
  | fail : Nat → String → ChainCheck
deriving DecidableEq, Repr

/-- The for loop of Blockchain.validateChain from index i, carrying the
previous block: hash link, proof-of-work, header digest, Merkle root, in
that order; the Merkle root is recomputed from the stored transaction
hashes only. -/
def validateChainAux (H : String → String) :
    Block → List Block → Nat → ChainCheck
  | _, [], _ => ChainCheck.ok
  | prev, b :: rest, i =>
    if b.previousHash ≠ prev.hash then ChainCheck.fail i "broken hash link"
    else if ¬ (strStartsWith b.hash (zeros b.difficulty) = true) then
      ChainCheck.fail i "invalid PoW"
    else if H (headerString b) ≠ b.hash then ChainCheck.fail i "hash mismatch"
    else if computeRoot H (b.transactions.map Tx.hash) ≠ b.merkleRoot then
      ChainCheck.fail i "merkle mismatch"
    else validateChainAux H b rest (i + 1)

/-- Blockchain.validateChain over a chain value. -/
def validateChain (H : String → String) (chain : List Block) : ChainCheck :=
  match chain with
  | [] => ChainCheck.ok
  | g :: rest => validateChainAux H g rest 1

-- ============================================================
-- Peer sync handlers (src/network/node.js)
-- ============================================================

/-- Transaction reconstruction used by rebuildChainFromData,
handleNewBlock and handleNewTx: run the constructor on the transmitted
inputs/outputs/isCoinbase, then overwrite timestamp, hash and signatures
with the transmitted values (the constructor timestamp and computed hash
are discarded). -/
def txOfData (H : String → String) (td : Tx) : Tx :=
  { mkTx H td.inputs td.outputs td.isCoinbase 0 with
      timestamp := td.timestamp, hash := td.hash,
      signatures := td.signatures }

/-- Block reconstruction: run the Block constructor, then overwrite
timestamp, merkleRoot, nonce, hash and miningTime with the transmitted
values.  Serialized blocks carry the same fields as Block, so the wire
form is represented by Block itself. -/
def blockOfData (H : String → String) (bd : Block) : Block :=
  { mkBlock H bd.height bd.previousHash (bd.transactions.map (txOfData H))
      bd.difficulty 0 with
      timestamp := bd.timestamp, merkleRoot := bd.merkleRoot,
      nonce := bd.nonce, hash := bd.hash, miningTime := bd.miningTime }

/-- rebuildChainFromData: reconstruct each serialized block, push it onto
the chain and apply its UTXO effects.  The JS function always mutates the
module-level blockchain (the this argument passed via .call is unused). -/
def rebuildChainFromData (H : String → String) (s : Chain)
    (data : List Block) : Chain :=
  data.foldl
    (fun st bd =>
      let block := blockOfData H bd
      { st with chain := st.chain ++ [block],
                utxoSet := processBlockUTXOs st.utxoSet block }) s

/-- handleChainResponse: ignore chains no longer than the local one;
otherwise run the dry-run rebuild (which, through the .call bug, mutates
the live blockchain), reset chain and UTXO set, and rebuild from the
received data.  No validateChain call anywhere on the incoming data. -/
def handleChainResponse (H : String → String) (s : Chain)
    (data : List Block) : Chain :=
  if data.length ≤ s.chain.length then s
  else
    let s1 := rebuildChainFromData H s data
    let s2 := { s1 with chain := [], utxoSet := [] }
    rebuildChainFromData H s2 data

/-- handleNewBlock: drop the block when its previousHash does not extend
the local tip (possibly requesting a resync, which leaves local state
unchanged); check only that the transmitted hash starts with
difficulty-many zeros (using the transmitted difficulty); then append the
reconstructed block, apply its UTXO effects and drop its transaction
hashes from the mempool.  The transmitted hash and merkleRoot are never
recomputed. -/
def handleNewBlock (H : String → String) (s : Chain) (bd : Block) : Chain :=
  match s.chain.getLast? with
  | none => s
  | some last =>
    if bd.previousHash ≠ last.hash then s
    else if ¬ (strStartsWith bd.hash (zeros bd.difficulty) = true) then s
    else
      let block := blockOfData H bd
      let confirmed := block.transactions.map Tx.hash
      { s with chain := s.chain ++ [block],
               utxoSet := processBlockUTXOs s.utxoSet block,
               mempool := s.mempool.filter (fun t => !(confirmed.contains t.hash)) }

/-- handleNewTx: deduplicate against the mempool by hash, then try
addToMempool on the reconstructed transaction; a rejection is swallowed
and the state unchanged. -/
def handleNewTx (H : String → String) (reg : Registry) (s : Chain)
    (td : Tx) : Chain :=
  if s.mempool.any (fun t => t.hash == td.hash) then s
  else
    match addToMempool H reg s (txOfData H td) with
    | Except.ok s1 => s1
    | Except.error _ => s

-- ============================================================
-- Derived notions used by the claims
-- ============================================================

/-- Every UTXO key consumed by a confirmed non-coinbase transaction, in
chain order; the no-double-spend property of C1 says this list never
repeats a key. -/
def spentKeys (s : Chain) : List String :=
  ((s.chain.map fun b =>
      b.transactions.filter (fun t => !t.isCoinbase)).flatten.map
    fun t => t.inputs.map fun inp => utxoKey inp.txHash inp.outputIndex).flatten

/-- The UnknownInput failure cause of Transaction.verify: some input
references a UTXO key absent from the given set. -/
def HasUnknownInput (u : UtxoMap) (tx : Tx) : Prop :=
  ∃ inp ∈ tx.inputs, mapGet u (utxoKey inp.txHash inp.outputIndex) = none

/-- The InvalidSignature failure cause: some input resolves to a UTXO but
no registry wallet owning that UTXO address verifies the input's
signature over the transaction hash. -/
def HasBadSignature (H : String → String) (reg : Registry) (u : UtxoMap)
    (tx : Tx) : Prop :=
  ∃ (j : Nat) (inp : TxInput) (utxo : Utxo), tx.inputs[j]? = some inp ∧
    mapGet u (utxoKey inp.txHash inp.outputIndex) = some utxo ∧
    sigMatches H reg tx.hash (tx.signatures.getD j "") utxo.address = false

/-- The InsufficientFunds failure cause: resolved input total below the
output total. -/
def InsufficientFunds (u : UtxoMap) (tx : Tx) : Prop :=
  getInputTotal u tx.inputs < outputTotal tx.outputs

-- ============================================================
-- A concrete evaluation scenario used by witnesses and
-- counterexamples: difficulty 0, a concrete digest function and a
-- single registered wallet holding the genesis funds
-- ============================================================

/-- A concrete stand-in digest function for evaluated scenarios. -/
def dH : String → String := fun s => "#" ++ s

def demoPriv : String := "k"

/-- derivePublicKey: sha256 of the private key. -/
def demoPub : String := dH demoPriv

/-- deriveAddress: substring(0, 40) of sha256 of the public key. -/
def demoAddr : String := String.mk ((dH demoPub).data.take 40)

/-- WALLET_REGISTRY holding the one demo wallet. -/
def demoReg : Registry :=
  [(demoPub, { privateKey := demoPriv, publicKey := demoPub, address := demoAddr })]

/-- The genesis coinbase built inside Blockchain.initialize for the demo
founder address. -/
def demoGenesisTx : Tx := createCoinbase dH demoAddr (MINING_REWARD * 100) 0 10

/-- State after Blockchain.initialize on a difficulty-0 chain. -/
def demoGenesisState : Chain :=
  (initChainGenesis dH (newChain 0) demoAddr 10 11 1).getD (newChain 0)

/-- State after mining one further (empty-mempool) block to address m. -/
def demoMinedState : Chain :=
  (mineBlock dH demoGenesisState "m" 12 13 1).getD (newChain 0)

def demoTxDefault : Tx := mkTx dH [] [] false 0

def demoBlockDefault : Block := mkBlock dH 0 "" [] 0 0

/-- A transaction spending the genesis UTXO, paying 10 to bob, signed by
the demo wallet. -/
def demoTx1 : Tx :=
  txSign dH (mkTx dH [⟨demoGenesisTx.hash, 0⟩] [⟨"bob", 10⟩] false 12) demoPriv

/-- A second transaction spending the same genesis UTXO, paying 20 to
carol, signed by the demo wallet. -/
def demoTx2 : Tx :=
  txSign dH (mkTx dH [⟨demoGenesisTx.hash, 0⟩] [⟨"carol", 20⟩] false 13) demoPriv

/-- A coinbase-flagged transaction with an arbitrary output, as a peer
could transmit it over NEW_TX. -/
def junkCoinbase : Tx := mkTx dH [] [⟨"attacker", 1000000⟩] true 0

/-- The genesis block of the demo chain. -/
def demoTip : Block := (demoGenesisState.chain.getLast?).getD demoBlockDefault

/-- A wire block extending the demo tip whose transmitted hash is not
the digest of its header (and whose merkleRoot is junk), with transmitted
difficulty 0 so that the proof-of-work prefix test passes vacuously. -/
def demoBadBlock : Block :=
  { height := 1, previousHash := demoTip.hash, transactions := [],
    difficulty := 0, timestamp := 99, merkleRoot := "junk", nonce := 7,
    hash := "zz", miningTime := 0 }

-- ============================================================
-- Claim theorems
-- ============================================================

theorem pairLevel_length (H : String → String) :
    ∀ l : List String, (pairLevel H l).length = (l.length + 1) / 2
  | [] => by simp [pairLevel]
  | [a] => by simp [pairLevel]
  | a :: b :: rest => by
    simp [pairLevel, pairLevel_length H rest]
    omega

theorem pairLevel_ne_empty (H : String → String) (hH : ∀ s, H s ≠ "") :
    ∀ l : List String, ∀ x ∈ pairLevel H l, x ≠ ""
  | [] => by simp [pairLevel]
  | [a] => by
    simp only [pairLevel, List.mem_singleton]
    rintro x rfl
    exact hH _
  | a :: b :: rest => by
    simp only [pairLevel, List.mem_cons]
    rintro x (rfl | hx)
    · exact hH _
    · exact pairLevel_ne_empty H hH rest x hx

theorem siblingStep_shift (a b : String) (rest : List String) (idx : Nat) :
    siblingStep (a :: b :: rest) (idx + 2) = siblingStep rest idx := by
  have g1 : ∀ k : Nat, (a :: b :: rest).getD (k + 2) "" = rest.getD k "" := by
    intro k
    show (a :: b :: rest).getD (k + 1 + 1) "" = _
    simp
  have h1 : (idx + 2) % 2 = idx % 2 := by omega
  have h2 : idx + 2 - idx % 2 = idx - idx % 2 + 2 := by omega
  have h3 : idx - idx % 2 + 2 + 1 = idx - idx % 2 + 1 + 2 := by omega
  simp only [siblingStep, h1, h2, h3, g1]

theorem applyStep_sibling (H : String → String) :
    ∀ (l : List String) (idx : Nat), (∀ x ∈ l, x ≠ "") → idx < l.length →
      applyStep H (l.getD idx "") (siblingStep l idx) =
        (pairLevel H l).getD (idx / 2) ""
  | [], idx, _, h => by simp at h
  | [a], idx, _, h => by
    have hidx : idx = 0 := by
      have : idx < 1 := by simpa using h
      omega
    subst hidx
    simp [siblingStep, applyStep, pairLevel]
  | a :: b :: rest, 0, hne, _ => by
    have hb : b ≠ "" := hne b (by simp)
    simp [siblingStep, applyStep, pairLevel, hb]
  | a :: b :: rest, 1, hne, _ => by
    have hb : b ≠ "" := hne b (by simp)
    simp [siblingStep, applyStep, pairLevel, hb]
  | a :: b :: rest, idx + 2, hne, h => by
    have hlen : idx < rest.length := by
      have := h
      simp only [List.length_cons] at this
      omega
    have hne2 : ∀ x ∈ rest, x ≠ "" := fun x hx => hne x (by simp [hx])
    have g1 : (a :: b :: rest).getD (idx + 2) "" = rest.getD idx "" := by
      show (a :: b :: rest).getD (idx + 1 + 1) "" = _
      simp
    have g2 : (idx + 2) / 2 = idx / 2 + 1 := by omega
    rw [siblingStep_shift, g1, g2]
    have ih := applyStep_sibling H rest idx hne2 hlen
    simpa [pairLevel] using ih

theorem rootLoop_fold (H : String → String) (hH : ∀ s, H s ≠ "") :
    ∀ (fuel : Nat) (level : List String), level.length ≤ fuel →
      (∀ x ∈ level, x ≠ "") → ∀ idx, idx < level.length →
      (getProofLoop H fuel level idx).foldl (applyStep H) (level.getD idx "") =
        rootLoop H fuel level
  | _, [], _, _, idx, h => by simp at h
  | fuel, [x], _, _, idx, h => by
    have hidx : idx = 0 := by
      have : idx < 1 := by simpa using h
      omega
    subst hidx
    cases fuel <;> simp [getProofLoop, rootLoop]
  | 0, a :: b :: rest, hf, _, idx, h => by
    simp at hf
  | fuel + 1, a :: b :: rest, hf, hne, idx, h => by
    have hltP : idx / 2 < (pairLevel H (a :: b :: rest)).length := by
      rw [pairLevel_length]
      simp only [List.length_cons] at h ⊢
      omega
    have hfP : (pairLevel H (a :: b :: rest)).length ≤ fuel := by
      rw [pairLevel_length]
      simp only [List.length_cons] at hf ⊢
      omega
    rw [getProofLoop, rootLoop, List.foldl_cons,
      applyStep_sibling H (a :: b :: rest) idx hne h]
    exact rootLoop_fold H hH fuel (pairLevel H (a :: b :: rest)) hfP
      (pairLevel_ne_empty H hH _) (idx / 2) hltP

/-- C2: Merkle proof round-trip. For every list of leaf hashes (all
nonempty strings, as sha256 hex digests always are) and every index i
within the list, verifyProof applied to the leaf, its generated proof and
the computed root returns true, for any digest function H whose outputs
are nonempty (again true of sha256). -/
theorem merkle_proof_round_trip (H : String → String) (leaves : List String)
    (i : Nat) (hne : ∀ x ∈ leaves, x ≠ "") (hH : ∀ s, H s ≠ "")
    (hi : i < leaves.length) :
    verifyProof H (leaves.getD i "") (getProof H leaves i)
      (computeRoot H leaves) = true := by
  unfold verifyProof computeRoot getProof
  have hpos : ¬ leaves.length = 0 := by omega
  rw [if_neg hpos]
  by_cases hlen : leaves.length ≤ 1
  · obtain ⟨x, rfl⟩ := List.length_eq_one.mp (by omega : leaves.length = 1)
    have hidx : i = 0 := by
      have : i < 1 := by simpa using hi
      omega
    subst hidx
    simp [rootLoop]
  · rw [if_neg hlen, rootLoop_fold H hH leaves.length leaves le_rfl hne i hi]
    simp

/-- Witness: the round-trip law evaluated on a concrete three-leaf tree
with a concrete digest function. -/
theorem merkle_proof_round_trip_witness :
    verifyProof (fun _ => "h") (["a", "b", "c"].getD 2 "")
      (getProof (fun _ => "h") ["a", "b", "c"] 2)
      (computeRoot (fun _ => "h") ["a", "b", "c"]) = true :=
  merkle_proof_round_trip (fun _ => "h") ["a", "b", "c"] 2
    (by decide) (fun _ => (by decide : ("h" : String) ≠ "")) (by decide)

theorem txOfData_eq (H : String → String) (td : Tx) : txOfData H td = td := by
  simp [txOfData, mkTx]

theorem blockOfData_eq (H : String → String) (bd : Block) :
    blockOfData H bd = bd := by
  have hfun : txOfData H = id := funext (txOfData_eq H)
  have hmap : bd.transactions.map (txOfData H) = bd.transactions := by
    rw [hfun, List.map_id]
  simp [blockOfData, mkBlock, hmap]

/-- C8: addToMempool error atomicity.  A transaction failing
verification against the current UTXO set is rejected with the Invalid
transaction error (the embedding is pure, so the error return itself
exhibits that chain, UTXO set and mempool are left untouched and the
transaction never enters the mempool); a transaction that verifies is
appended to the mempool and the call succeeds, changing nothing but the
mempool. -/
theorem addToMempool_atomic (H : String → String) (reg : Registry)
    (s : Chain) (tx : Tx) :
    (txVerify H reg tx s.utxoSet = false →
      addToMempool H reg s tx = Except.error "Invalid transaction") ∧
    (txVerify H reg tx s.utxoSet = true →
      addToMempool H reg s tx =
        Except.ok { s with mempool := s.mempool ++ [tx] }) := by
  constructor
  · intro hv
    have hcb : tx.isCoinbase = false := by
      by_contra hc
      rw [Bool.not_eq_false] at hc
      simp [txVerify, hc] at hv
    simp [addToMempool, hcb, hv]
  · intro hv
    simp [addToMempool, hv]

/-- Witness: a concrete failing transaction (outputs exceed resolved
inputs) is rejected, and a concrete passing transaction is appended. -/
theorem addToMempool_atomic_witness :
    addToMempool dH [] (newChain 0) (mkTx dH [] [⟨"a", 5⟩] false 0) =
      Except.error "Invalid transaction" ∧
    addToMempool dH [] (newChain 0) (mkTx dH [] [] false 0) =
      Except.ok { newChain 0 with mempool := [mkTx dH [] [] false 0] } :=
  ⟨(addToMempool_atomic dH [] (newChain 0) (mkTx dH [] [⟨"a", 5⟩] false 0)).1
      (by decide),
   (addToMempool_atomic dH [] (newChain 0) (mkTx dH [] [] false 0)).2
      (by decide)⟩

/-- C10: coinbase bypass on admission.  Any transaction whose isCoinbase
flag is true is appended to the mempool by addToMempool with no check of
its inputs, outputs or amounts, and a peer-supplied NEW_TX carrying
isCoinbase = true that is not already in the mempool is likewise
admitted by handleNewTx. -/
theorem coinbase_admission_bypass (H : String → String) (reg : Registry)
    (s : Chain) (tx td : Tx) :
    (tx.isCoinbase = true →
      addToMempool H reg s tx =
        Except.ok { s with mempool := s.mempool ++ [tx] }) ∧
    (td.isCoinbase = true →
      s.mempool.any (fun t => t.hash == td.hash) = false →
      handleNewTx H reg s td =
        { s with mempool := s.mempool ++ [txOfData H td] }) := by
  constructor
  · intro hcb
    simp [addToMempool, hcb]
  · intro hcb hdup
    have hcb2 : (txOfData H td).isCoinbase = true := by
      simp [txOfData, mkTx, hcb]
    simp [handleNewTx, hdup, addToMempool, hcb2]

/-- Witness: a coinbase-flagged transaction minting 1000000 to an
attacker is admitted both directly and through handleNewTx. -/
theorem coinbase_admission_bypass_witness :
    addToMempool dH demoReg (newChain 0) junkCoinbase =
      Except.ok { newChain 0 with mempool := [junkCoinbase] } ∧
    handleNewTx dH demoReg (newChain 0) junkCoinbase =
      { newChain 0 with mempool := [txOfData dH junkCoinbase] } :=
  ⟨(coinbase_admission_bypass dH demoReg (newChain 0) junkCoinbase
      junkCoinbase).1 (by decide),
   (coinbase_admission_bypass dH demoReg (newChain 0) junkCoinbase
      junkCoinbase).2 (by decide) (by decide)⟩

/-- C1 (code bug): the mempool admits two transactions spending the same
UTXO, because each is verified against the unchanged confirmed UTXO set,
and mineBlock confirms the whole mempool without re-verification.  The
run below initializes a chain, admits demoTx1 and demoTx2 (both spending
the genesis output), mines, and the list of UTXO keys consumed by
confirmed non-coinbase transactions then contains a duplicate: two
confirmed transactions consumed the same (txHash, outputIndex). -/
theorem confirmed_double_spend_run :
    (do
      let s0 ← initChainGenesis dH (newChain 0) demoAddr 10 11 1
      let s1 ← (addToMempool dH demoReg s0 demoTx1).toOption
      let s2 ← (addToMempool dH demoReg s1 demoTx2).toOption
      let s3 ← mineBlock dH s2 "miner" 14 15 1
      pure (decide (spentKeys s3).Nodup)) = some false := by decide

/-- C9: NEW_BLOCK acceptance never recomputes the digest.  First part:
whenever the transmitted previousHash matches the local tip and the
transmitted hash merely starts with (transmitted) difficulty many zeros,
handleNewBlock appends the reconstructed block and applies its UTXO
effects — with no hypothesis relating the transmitted hash to the header
digest or the transmitted merkleRoot to the transactions.  Second part:
a concrete such block (demoBadBlock, whose hash is "zz") is accepted
onto a previously valid chain and makes validateChain fail. -/
theorem new_block_skips_digest_check (H : String → String) (s : Chain)
    (bd last : Block) :
    (s.chain.getLast? = some last →
      bd.previousHash = last.hash →
      strStartsWith bd.hash (zeros bd.difficulty) = true →
      handleNewBlock H s bd =
        { s with chain := s.chain ++ [blockOfData H bd],
                 utxoSet := processBlockUTXOs s.utxoSet (blockOfData H bd),
                 mempool := s.mempool.filter (fun t =>
                   !(((blockOfData H bd).transactions.map Tx.hash).contains
                     t.hash)) }) ∧
    validateChain dH ((handleNewBlock dH demoGenesisState demoBadBlock).chain) =
      ChainCheck.fail 1 "hash mismatch" := by
  constructor
  · intro hlast hprev hpow
    simp [handleNewBlock, hlast, hprev, hpow]
  · decide

/-- Witness: the acceptance part applied to the demo state and the bad
block. -/
theorem new_block_skips_digest_check_witness :
    handleNewBlock dH demoGenesisState demoBadBlock =
      { demoGenesisState with
          chain := demoGenesisState.chain ++ [blockOfData dH demoBadBlock],
          utxoSet := processBlockUTXOs demoGenesisState.utxoSet
            (blockOfData dH demoBadBlock),
          mempool := demoGenesisState.mempool.filter (fun t =>
            !(((blockOfData dH demoBadBlock).transactions.map Tx.hash).contains
              t.hash)) } :=
  (new_block_skips_digest_check dH demoGenesisState demoBadBlock demoTip).1
    (by decide) (by decide) (by decide)

theorem rebuildChainFromData_spec (H : String → String) :
    ∀ (data : List Block) (s : Chain),
      rebuildChainFromData H s data =
        { chain := s.chain ++ data.map (blockOfData H),
          utxoSet := data.foldl
            (fun u bd => processBlockUTXOs u (blockOfData H bd)) s.utxoSet,
          mempool := s.mempool, difficulty := s.difficulty }
  | [], s => by simp [rebuildChainFromData]
  | bd :: rest, s => by
    have ih := rebuildChainFromData_spec H rest
      { s with chain := s.chain ++ [blockOfData H bd],
               utxoSet := processBlockUTXOs s.utxoSet (blockOfData H bd) }
    simp only [rebuildChainFromData, List.foldl_cons] at ih ⊢
    rw [ih]
    simp

/-- C3: CHAIN_RESPONSE handling.  A received chain no longer than the
local one leaves chain, UTXO set and mempool unchanged.  A strictly
longer received chain wholesale-replaces the local chain and UTXO set by
replaying every received block from height 0 through the
block-application routine (the UTXO set is rebuilt from empty), keeping
the mempool; the statement carries no hypothesis about the validity of
the received data, so the replacement happens without any validateChain
run on it. -/
theorem chain_response_spec (H : String → String) (s : Chain)
    (data : List Block) :
    (data.length ≤ s.chain.length → handleChainResponse H s data = s) ∧
    (s.chain.length < data.length →
      handleChainResponse H s data =
        { chain := data.map (blockOfData H),
          utxoSet := data.foldl
            (fun u bd => processBlockUTXOs u (blockOfData H bd)) [],
          mempool := s.mempool, difficulty := s.difficulty }) := by
  constructor
  · intro hle
    simp [handleChainResponse, hle]
  · intro hgt
    have hnle : ¬ data.length ≤ s.chain.length := by omega
    simp only [handleChainResponse, if_neg hnle]
    rw [rebuildChainFromData_spec, rebuildChainFromData_spec]
    simp

/-- Witness: a too-short response is ignored; a longer (structurally
junk) response replaces chain and UTXO set with the replayed data while
the mempool is preserved. -/
theorem chain_response_spec_witness :
    handleChainResponse dH demoGenesisState [] = demoGenesisState ∧
    handleChainResponse dH demoGenesisState [demoBadBlock, demoBadBlock] =
      { chain := [demoBadBlock, demoBadBlock].map (blockOfData dH),
        utxoSet := [demoBadBlock, demoBadBlock].foldl
          (fun u bd => processBlockUTXOs u (blockOfData dH bd)) [],
        mempool := demoGenesisState.mempool,
        difficulty := demoGenesisState.difficulty } :=
  ⟨(chain_response_spec dH demoGenesisState []).1 (by decide),
   (chain_response_spec dH demoGenesisState [demoBadBlock, demoBadBlock]).2
     (by decide)⟩

theorem checkInputs_eq_true_iff (H : String → String) (reg : Registry)
    (u : UtxoMap) (txHash : String) (sigs : List String) :
    ∀ (inputs : List TxInput) (i0 : Nat),
      checkInputs H reg u txHash sigs inputs i0 = true ↔
        ∀ (j : Nat) (inp : TxInput), inputs[j]? = some inp →
          ∃ utxo, mapGet u (utxoKey inp.txHash inp.outputIndex) = some utxo ∧
            sigMatches H reg txHash (sigs.getD (i0 + j) "") utxo.address = true
  | [], i0 => by simp [checkInputs]
  | inp :: rest, i0 => by
    cases hg : mapGet u (utxoKey inp.txHash inp.outputIndex) with
    | none =>
      simp only [checkInputs, hg]
      constructor
      · intro h
        cases h
      · intro h
        obtain ⟨utxo, hu, _⟩ := h 0 inp (by simp)
        rw [hg] at hu
        cases hu
    | some utxo =>
      simp only [checkInputs, hg, Bool.and_eq_true]
      rw [checkInputs_eq_true_iff H reg u txHash sigs rest (i0 + 1)]
      constructor
      · rintro ⟨hsig, hrest⟩ j inp2 hj
        cases j with
        | zero =>
          simp only [List.getElem?_cons_zero, Option.some.injEq] at hj
          subst hj
          exact ⟨utxo, hg, by simpa using hsig⟩
        | succ j2 =>
          simp only [List.getElem?_cons_succ] at hj
          have h2 := hrest j2 inp2 hj
          have harith : i0 + 1 + j2 = i0 + (j2 + 1) := by omega
          rwa [harith] at h2
      · intro hall
        constructor
        · obtain ⟨utxo2, hu2, hs2⟩ := hall 0 inp (by simp)
          rw [hg] at hu2
          injection hu2 with hu2
          subst hu2
          simpa using hs2
        · intro j inp2 hj
          have h2 := hall (j + 1) inp2 (by simpa using hj)
          have harith : i0 + (j + 1) = i0 + 1 + j := by omega
          rwa [harith] at h2

/-- C4: Transaction.verify.  A coinbase transaction always verifies.  A
non-coinbase transaction fails exactly when one of the three causes
holds — an unresolved input (UnknownInput), a resolvable input without a
matching valid signature (InvalidSignature), or resolved input total
below output total (InsufficientFunds) — and succeeds when none of them
holds.  The code reports all three causes through the same boolean
failure that addToMempool turns into its Invalid transaction error. -/
theorem txVerify_spec (H : String → String) (reg : Registry) (tx : Tx)
    (u : UtxoMap) :
    (tx.isCoinbase = true → txVerify H reg tx u = true) ∧
    (txVerify H reg tx u = false ↔
      tx.isCoinbase = false ∧
        (HasUnknownInput u tx ∨ HasBadSignature H reg u tx ∨
          InsufficientFunds u tx)) := by
  constructor
  · intro hcb
    simp [txVerify, hcb]
  · cases hcb : tx.isCoinbase with
    | true => simp [txVerify, hcb]
    | false =>
      have hchar := checkInputs_eq_true_iff H reg u tx.hash tx.signatures
        tx.inputs 0
      simp only [Nat.zero_add] at hchar
      have hfalse :
          checkInputs H reg u tx.hash tx.signatures tx.inputs 0 = false ↔
            (HasUnknownInput u tx ∨ HasBadSignature H reg u tx) := by
        rw [← Bool.not_eq_true, hchar]
        push_neg
        constructor
        · rintro ⟨j, inp, hj, hno⟩
          cases hm : mapGet u (utxoKey inp.txHash inp.outputIndex) with
          | none =>
            exact Or.inl ⟨inp, List.mem_iff_getElem?.mpr ⟨j, hj⟩, hm⟩
          | some utxo =>
            right
            refine ⟨j, inp, utxo, hj, hm, ?_⟩
            have := hno utxo hm
            simpa using this
        · rintro (⟨inp, hmem, hm⟩ | ⟨j, inp, utxo, hj, hm, hs⟩)
          · obtain ⟨j, hj⟩ := List.mem_iff_getElem?.mp hmem
            refine ⟨j, inp, hj, ?_⟩
            intro utxo hu
            rw [hm] at hu
            cases hu
          · refine ⟨j, inp, hj, ?_⟩
            intro utxo2 hu2
            rw [hm] at hu2
            injection hu2 with hu2
            subst hu2
            simpa using hs
      constructor
      · intro hv
        refine ⟨rfl, ?_⟩
        have hv2 : (checkInputs H reg u tx.hash tx.signatures tx.inputs 0 &&
            decide (outputTotal tx.outputs ≤ getInputTotal u tx.inputs)) =
              false := by
          simpa [txVerify, hcb] using hv
        rcases Bool.and_eq_false_iff.mp hv2 with h | h
        · rcases hfalse.mp h with h2 | h2
          · exact Or.inl h2
          · exact Or.inr (Or.inl h2)
        · refine Or.inr (Or.inr ?_)
          have := decide_eq_false_iff_not.mp h
          simpa [InsufficientFunds, not_le] using this
      · rintro ⟨-, hcase⟩
        have hand : (checkInputs H reg u tx.hash tx.signatures tx.inputs 0 &&
            decide (outputTotal tx.outputs ≤ getInputTotal u tx.inputs)) =
              false := by
          rcases hcase with h | h | h
          · exact Bool.and_eq_false_iff.mpr (Or.inl (hfalse.mpr (Or.inl h)))
          · exact Bool.and_eq_false_iff.mpr (Or.inl (hfalse.mpr (Or.inr h)))
          · exact Bool.and_eq_false_iff.mpr
              (Or.inr (decide_eq_false_iff_not.mpr (not_le.mpr h)))
        simpa [txVerify, hcb] using hand

/-- Witness: the demo junk coinbase verifies trivially, and demoTx1
verifies against the genesis UTXO set. -/
theorem txVerify_spec_witness :
    txVerify dH demoReg junkCoinbase demoGenesisState.utxoSet = true :=
  (txVerify_spec dH demoReg junkCoinbase demoGenesisState.utxoSet).1 rfl

theorem mineLoop_post (H : String → String) (target : String) :
    ∀ (fuel : Nat) (b b2 : Block), mineLoop H target b fuel = some b2 →
      b2.hash = H (headerString b2) ∧
      strStartsWith b2.hash target = true ∧
      b2.height = b.height ∧ b2.previousHash = b.previousHash ∧
      b2.transactions = b.transactions ∧ b2.difficulty = b.difficulty ∧
      b2.timestamp = b.timestamp ∧ b2.merkleRoot = b.merkleRoot
  | 0, b, b2 => by simp [mineLoop]
  | fuel + 1, b, b2 => by
    simp only [mineLoop]
    split
    · intro hsome
      injection hsome with hsome
      subst hsome
      refine ⟨rfl, by assumption, rfl, rfl, rfl, rfl, rfl, rfl⟩
    · intro hsome
      have ih := mineLoop_post H target fuel _ b2 hsome
      exact ih

theorem mineLoop_reaches (H : String → String) (target : String) :
    ∀ (k : Nat) (b : Block),
      strStartsWith (H (headerString { b with nonce := b.nonce + (k + 1) }))
          target = true →
      ∃ fuel b2, mineLoop H target b fuel = some b2
  | 0, b, hq => by
    have hcond : strStartsWith
        (H (headerString { b with nonce := b.nonce + 1 })) target = true := by
      simpa using hq
    refine ⟨1, ⟨b.height, b.previousHash, b.transactions, b.difficulty,
      b.timestamp, b.merkleRoot, b.nonce + 1,
      H (headerString { b with nonce := b.nonce + 1 }), b.miningTime⟩, ?_⟩
    simp only [mineLoop]
    split
    · rfl
    · next h => exact absurd hcond h
  | k + 1, b, hq => by
    by_cases hfirst :
        strStartsWith (H (headerString { b with nonce := b.nonce + 1 }))
          target = true
    · refine ⟨1, ⟨b.height, b.previousHash, b.transactions, b.difficulty,
        b.timestamp, b.merkleRoot, b.nonce + 1,
        H (headerString { b with nonce := b.nonce + 1 }), b.miningTime⟩, ?_⟩
      simp only [mineLoop]
      split
      · rfl
      · next h => exact absurd hfirst h
    · have hq2 :
          strStartsWith (H (headerString
            { b with nonce := b.nonce + 1 + (k + 1),
                     hash := H (headerString { b with nonce := b.nonce + 1 }) }))
            target = true := by
        have harith : b.nonce + 1 + (k + 1) = b.nonce + (k + 1 + 1) := by omega
        rw [harith]
        exact hq
      obtain ⟨fuel, b2, hf⟩ := mineLoop_reaches H target k
        { b with nonce := b.nonce + 1,
                 hash := H (headerString { b with nonce := b.nonce + 1 }) }
        hq2
      refine ⟨fuel + 1, b2, ?_⟩
      simp only [mineLoop]
      split
      · next h => exact absurd h hfirst
      · exact hf

/-- C7: Block.mine termination and postcondition.  Whenever some nonce
beyond the block's current one (the constructor starts it at 0, and the
do-while loop only ever tests larger nonces) gives a header digest with
at least difficulty leading zero hex characters, the mining loop
terminates within some fuel, and the block it returns stores exactly the
digest of its own canonical header string, which carries at least
difficulty leading zeros. -/
theorem mine_terminates (H : String → String) (b : Block)
    (hex : ∃ n, b.nonce < n ∧
      strStartsWith (H (headerString { b with nonce := n }))
        (zeros b.difficulty) = true) :
    ∃ fuel b2, mineB H b fuel = some b2 ∧
      b2.hash = H (headerString b2) ∧
      strStartsWith b2.hash (zeros b2.difficulty) = true := by
  obtain ⟨n, hlt, hq⟩ := hex
  obtain ⟨k, rfl⟩ : ∃ k, n = b.nonce + (k + 1) := ⟨n - b.nonce - 1, by omega⟩
  obtain ⟨fuel, b2, hf⟩ := mineLoop_reaches H (zeros b.difficulty) k b hq
  have hpost := mineLoop_post H (zeros b.difficulty) fuel b b2 hf
  refine ⟨fuel, b2, hf, hpost.1, ?_⟩
  rw [hpost.2.2.2.2.2.1]
  exact hpost.2.1

/-- Witness: mining the demo genesis block (difficulty 0, nonce 1
qualifies) terminates with a self-consistent sealed block. -/
theorem mine_terminates_witness :
    ∃ fuel b2,
      mineB dH (mkBlock dH 0 (zeros 64) [demoGenesisTx] 0 11) fuel = some b2 ∧
      b2.hash = dH (headerString b2) ∧
      strStartsWith b2.hash (zeros b2.difficulty) = true :=
  mine_terminates dH (mkBlock dH 0 (zeros 64) [demoGenesisTx] 0 11)
    ⟨1, by decide, by decide⟩

theorem mapSet_of_get_none :
    ∀ (m : UtxoMap) (k : String) (v : Utxo), mapGet m k = none →
      mapSet m k v = m ++ [(k, v)]
  | [], _, _, _ => rfl
  | (k2, v2) :: rest, k, v, h => by
    by_cases hk : k2 = k
    · simp [mapGet, hk] at h
    · simp only [mapSet, if_neg hk]
      rw [mapSet_of_get_none rest k v (by simpa [mapGet, hk] using h)]
      simp

theorem utxoSum_append (m : UtxoMap) (k : String) (v : Utxo) (a : String) :
    utxoSum (m ++ [(k, v)]) a =
      utxoSum m a + (if v.address = a then v.amount else 0) := by
  unfold utxoSum
  rw [List.foldl_append]
  simp only [List.foldl_cons, List.foldl_nil]
  split <;> simp

theorem jsRound2_intCast (n : ℤ) : jsRound2 ((n : ℤ) : ℚ) = ((n : ℤ) : ℚ) := by
  unfold jsRound2
  have h1 : ((n : ℚ)) * 100 + 1 / 2 = ((100 * n : ℤ) : ℚ) + 1 / 2 := by
    push_cast
    ring
  rw [h1, Int.floor_int_add, show ⌊(1 / 2 : ℚ)⌋ = 0 from by norm_num]
  push_cast
  ring

/-- getBalance on an integral UTXO set is the exact integral sum: the
rounding step is the identity there. -/
theorem getBalance_eq_sum (s : Chain) (a : String) :
    getBalance s a = ((utxoSum s.utxoSet a : ℤ) : ℚ) :=
  jsRound2_intCast _

/-- C6: mining one block from a genesis-only chain with an empty
mempool.  When initialize has produced the genesis-only state s0 and
mineBlock(miner) succeeds (and the fresh coinbase key does not collide
with an existing UTXO key, which sha256 digests never do), the chain
length becomes 2, the miner's balance grows by exactly MINING_REWARD =
50, the UTXO set gains exactly one appended entry keyed by the coinbase
transaction's hash at output index 0, and the mempool is left empty. -/
theorem mine_scenario_one (H : String → String) (d : Nat) (ga miner : String)
    (t1 t2 t3 t4 f1 f2 : Nat) (s0 s1 : Chain)
    (h0 : initChainGenesis H (newChain d) ga t1 t2 f1 = some s0)
    (h1 : mineBlock H s0 miner t3 t4 f2 = some s1)
    (hfresh : mapGet s0.utxoSet
      (utxoKey (coinbaseFor H s0 miner t3).hash 0) = none) :
    s1.chain.length = 2 ∧
    getBalance s1 miner = getBalance s0 miner + ((MINING_REWARD : ℤ) : ℚ) ∧
    s1.utxoSet = s0.utxoSet ++
      [(utxoKey (coinbaseFor H s0 miner t3).hash 0,
        { address := miner, amount := MINING_REWARD })] ∧
    s1.mempool = [] := by
  simp only [initChainGenesis] at h0
  obtain ⟨g, hg, hs0⟩ := Option.map_eq_some'.mp h0
  have hchain0 : s0.chain = [g] := by
    rw [← hs0]
    simp [newChain]
  have hmem0 : s0.mempool = [] := by
    rw [← hs0]
    simp [newChain]
  simp only [mineBlock, hchain0, hmem0, List.getLast?_singleton] at h1
  obtain ⟨b, hb, hs1⟩ := Option.map_eq_some'.mp h1
  have hchain1 : s1.chain = s0.chain ++ [b] := by
    rw [← hs1, hchain0]
  have hutxo1 : s1.utxoSet = processBlockUTXOs s0.utxoSet b := by
    rw [← hs1]
  have hmem1 : s1.mempool = [] := by
    rw [← hs1]
  have hbt := (mineLoop_post H _ f2 _ b hb).2.2.2.2.1
  have hpb : processBlockUTXOs s0.utxoSet b =
      mapSet s0.utxoSet (utxoKey (coinbaseFor H s0 miner t3).hash 0)
        { address := miner, amount := MINING_REWARD } := by
    rw [processBlockUTXOs, hbt]
    simp [processTxUTXOs, coinbaseFor, createCoinbase, mkTx, mkBlock,
      List.enum, List.enumFrom]
  refine ⟨by rw [hchain1, hchain0]; simp, ?_, ?_, hmem1⟩
  · rw [getBalance_eq_sum, getBalance_eq_sum, hutxo1, hpb,
      mapSet_of_get_none _ _ _ hfresh, utxoSum_append]
    simp
  · rw [hutxo1, hpb, mapSet_of_get_none _ _ _ hfresh]

/-- Witness: the demo run (difficulty 0) from genesis to one mined
block. -/
theorem mine_scenario_one_witness :
    demoMinedState.chain.length = 2 ∧
    getBalance demoMinedState "m" =
      getBalance demoGenesisState "m" + ((MINING_REWARD : ℤ) : ℚ) ∧
    demoMinedState.utxoSet = demoGenesisState.utxoSet ++
      [(utxoKey (coinbaseFor dH demoGenesisState "m" 12).hash 0,
        { address := "m", amount := MINING_REWARD })] ∧
    demoMinedState.mempool = [] :=
  mine_scenario_one dH 0 demoAddr "m" 10 11 12 13 1 1
    demoGenesisState demoMinedState (by decide) (by decide) (by decide)

theorem validateChainAux_cons_ok_iff (H : String → String) (prev c : Block)
    (rest : List Block) (k : Nat) :
    validateChainAux H prev (c :: rest) k = ChainCheck.ok ↔
      (c.previousHash = prev.hash ∧
       strStartsWith c.hash (zeros c.difficulty) = true ∧
       H (headerString c) = c.hash ∧
       computeRoot H (c.transactions.map Tx.hash) = c.merkleRoot ∧
       validateChainAux H c rest (k + 1) = ChainCheck.ok) := by
  by_cases h1 : c.previousHash = prev.hash
  · by_cases h2 : strStartsWith c.hash (zeros c.difficulty) = true
    · by_cases h3 : H (headerString c) = c.hash
      · by_cases h4 : computeRoot H (c.transactions.map Tx.hash) = c.merkleRoot
        · simp [validateChainAux, h1, h2, h3, h4]
        · simp [validateChainAux, h1, h2, h3, h4]
      · simp [validateChainAux, h1, h2, h3]
    · simp [validateChainAux, h1, h2]
  · simp [validateChainAux, h1]

theorem validateChainAux_cons_merkle_fail (H : String → String)
    (prev c : Block) (rest : List Block) (k : Nat)
    (h1 : c.previousHash = prev.hash)
    (h2 : strStartsWith c.hash (zeros c.difficulty) = true)
    (h3 : H (headerString c) = c.hash)
    (h4 : computeRoot H (c.transactions.map Tx.hash) ≠ c.merkleRoot) :
    validateChainAux H prev (c :: rest) k =
      ChainCheck.fail k "merkle mismatch" := by
  simp [validateChainAux, h1, h2, h3, h4]

theorem validateChainAux_cons_step (H : String → String)
    (prev c : Block) (rest : List Block) (k : Nat)
    (h1 : c.previousHash = prev.hash)
    (h2 : strStartsWith c.hash (zeros c.difficulty) = true)
    (h3 : H (headerString c) = c.hash)
    (h4 : computeRoot H (c.transactions.map Tx.hash) = c.merkleRoot) :
    validateChainAux H prev (c :: rest) k = validateChainAux H c rest (k + 1) := by
  simp [validateChainAux, h1, h2, h3, h4]

theorem validateChainAux_merkle_break (H : String → String) :
    ∀ (prev : Block) (cs : List Block) (k j : Nat) (hj : j < cs.length)
      (T : List Tx),
      validateChainAux H prev cs k = ChainCheck.ok →
      computeRoot H (T.map Tx.hash) ≠ (cs.get ⟨j, hj⟩).merkleRoot →
      validateChainAux H prev
          (cs.set j { cs.get ⟨j, hj⟩ with transactions := T }) k =
        ChainCheck.fail (k + j) "merkle mismatch"
  | prev, [], k, j, hj, T => by simp at hj
  | prev, c :: rest, k, 0, hj, T => by
    intro hok hroot
    obtain ⟨h1, h2, h3, h4, h5⟩ :=
      (validateChainAux_cons_ok_iff H prev c rest k).mp hok
    simp only [List.get] at hroot
    simp only [List.set]
    have hfail := validateChainAux_cons_merkle_fail H prev
      { c with transactions := T } rest k h1 h2 h3 hroot
    simpa using hfail
  | prev, c :: rest, k, j + 1, hj, T => by
    intro hok hroot
    obtain ⟨h1, h2, h3, h4, h5⟩ :=
      (validateChainAux_cons_ok_iff H prev c rest k).mp hok
    have hj2 : j < rest.length := by simpa using hj
    have ih := validateChainAux_merkle_break H c rest (k + 1) j hj2 T h5
      (by simpa using hroot)
    rw [show k + 1 + j = k + (j + 1) from by omega] at ih
    simp only [List.set]
    rw [validateChainAux_cons_step H prev c _ k h1 h2 h3 h4]
    exact ih

/-- C5 (amended) : validateChain recomputes the Merkle root from the
stored transaction hashes only.  For every chain it accepts and every
block after genesis, replacing a confirmed transaction's stored hash
field so that the recomputed root of that block's hash list no longer
matches its stored merkleRoot (which any single-byte change of the hash
achieves absent a sha256 collision) makes validateChain fail at exactly
that block with reason merkle mismatch.  The counterexample theorem
shows that mutating the transaction's other fields while keeping the
stored hash is NOT detected, which refutes the claim as stated. -/
theorem tamper_stored_hash_detected (H : String → String)
    (chain : List Block) (i j : Nat) (hi : i < chain.length) (h1i : 1 ≤ i)
    (hv : validateChain H chain = ChainCheck.ok) (newHash : String)
    (hj : j < (chain.get ⟨i, hi⟩).transactions.length)
    (hroot : computeRoot H
        (((chain.get ⟨i, hi⟩).transactions.set j
          { (chain.get ⟨i, hi⟩).transactions.get ⟨j, hj⟩ with
              hash := newHash }).map Tx.hash) ≠
      (chain.get ⟨i, hi⟩).merkleRoot) :
    validateChain H (chain.set i
      { chain.get ⟨i, hi⟩ with transactions :=
          ((chain.get ⟨i, hi⟩).transactions.set j
            ({ (chain.get ⟨i, hi⟩).transactions.get ⟨j, hj⟩ with
                hash := newHash })) }) =
      ChainCheck.fail i "merkle mismatch" := by
  cases chain with
  | nil => simp at hi
  | cons g cs =>
    obtain ⟨m, rfl⟩ : ∃ m, i = m + 1 := ⟨i - 1, by omega⟩
    have hm : m < cs.length := by simpa using hi
    have hok : validateChainAux H g cs 1 = ChainCheck.ok := hv
    have hres := validateChainAux_merkle_break H g cs 1 m hm
      ((cs.get ⟨m, hm⟩).transactions.set j
        { (cs.get ⟨m, hm⟩).transactions.get
            ⟨j, by simpa using hj⟩ with hash := newHash })
      hok (by simpa using hroot)
    rw [show (1 : Nat) + m = m + 1 from by omega] at hres
    exact hres

/-- C5 counterexample: the claim as stated fails.  The demo two-block
chain passes validateChain; mutating a confirmed transaction's payload
(the coinbase output amount of block 1, 50 changed to 51 — a single-byte
change) while its stored hash field stays put produces a genuinely
different chain that validateChain still reports as fully valid, because
transaction hashes are never recomputed from transaction contents. -/
theorem tamper_payload_undetected :
    validateChain dH demoMinedState.chain = ChainCheck.ok ∧
    demoMinedState.chain.set 1
        { demoMinedState.chain.get ⟨1, by decide⟩ with transactions :=
            ((demoMinedState.chain.get ⟨1, by decide⟩).transactions.set 0
              ({ (demoMinedState.chain.get
                  ⟨1, by decide⟩).transactions.get ⟨0, by decide⟩ with
                  outputs := [{ address := "m", amount := 51 }] })) } ≠
      demoMinedState.chain ∧
    validateChain dH
      (demoMinedState.chain.set 1
        { demoMinedState.chain.get ⟨1, by decide⟩ with transactions :=
            ((demoMinedState.chain.get ⟨1, by decide⟩).transactions.set 0
              ({ (demoMinedState.chain.get
                  ⟨1, by decide⟩).transactions.get ⟨0, by decide⟩ with
                  outputs := [{ address := "m", amount := 51 }] })) }) =
      ChainCheck.ok := by
  refine ⟨by decide, by decide, by decide⟩

/-- Witness for the amended statement: replacing the stored hash of the
coinbase of demo block 1 by the string evil is flagged as a merkle
mismatch at block 1. -/
theorem tamper_stored_hash_detected_witness :
    validateChain dH
      (demoMinedState.chain.set 1
        { demoMinedState.chain.get ⟨1, by decide⟩ with transactions :=
            ((demoMinedState.chain.get ⟨1, by decide⟩).transactions.set 0
              ({ (demoMinedState.chain.get
                  ⟨1, by decide⟩).transactions.get ⟨0, by decide⟩ with
                  hash := "evil" })) }) =
      ChainCheck.fail 1 "merkle mismatch" :=
  tamper_stored_hash_detected dH demoMinedState.chain 1 0 (by decide)
    (by decide) (by decide) "evil" (by decide) (by decide)
